import Mathlib

/-! # Verification of `Dijkstra's Shortest Path Algorithm.cpp`

Shallow embedding of the repository's single C++ source file.  The C++ code
uses `std::map<string, map<string, int>>` for the graph, a
`std::priority_queue` of `(distance, node)` pairs with `std::greater` (a
min-heap under lexicographic pair comparison), `std::map<string,int>` for
distances (sentinel `numeric_limits<int>::max()`), and
`std::map<string,string>` for predecessors.

Modelling decisions, each traceable to the source:

* `std::map<K,V>` is modelled as an association list `List (K × V)` with
  unique keys (a `std::map` cannot hold duplicate keys); lookup is
  `List.lookup`.  Insertion order of fresh keys in the list is irrelevant to
  `List.lookup`, so we do not sort.
* `operator[]` on `std::map<string,int>` value-initialises a missing entry to
  `0` and returns a reference; reading `distances[x]` therefore *inserts*
  `(x, 0)` when `x` is absent.  This is modelled by `lookupD`/`insertIfAbsent`
  performed together, exactly where the C++ code calls `operator[]`.
* C++ `int` is 32-bit two's complement; `new_distance = current_distance +
  weight` is modelled by `wrap32 (c + w)` on `Int` (the usual concrete
  reading of signed overflow).
* `std::priority_queue<State, vector<State>, greater<State>>` pops the
  lexicographically least `(distance, node)` pair; equal pairs are
  indistinguishable, so popping the first minimal element of a list is
  faithful.
* The `while (!pq.empty())` loop is modelled with an explicit fuel argument
  (`drun`); `fuelBound` is a generous bound (each push to a node accompanies
  a strict decrease of its stored 32-bit distance, so the number of loop
  iterations is at most `1 + edges * 2^32`).  All invariant theorems below
  are proved for every fuel value, so they cover the state at which the C++
  loop actually terminates.
* The backward walk of `reconstruct_path` need not terminate for an
  arbitrary predecessor map (the C++ loop then runs forever); it is modelled
  with fuel `pred.length + 1` and result type `Option`, where `none` marks
  divergence.  A terminating C++ walk performs successful lookups on
  pairwise distinct keys (a repeated key would make the deterministic walk
  cycle forever), hence at most `pred.length` of them, so the fuel is exact:
  `some` results coincide with the C++ result and `none` coincides with
  divergence.
-/

/-- `numeric_limits<int>::max()`, the "infinite distance" sentinel. -/
def INTMAX : Int := 2147483647

/-- 32-bit two's-complement wrap-around of integer arithmetic (C++ `int`). -/
def wrap32 (x : Int) : Int := (x + 2147483648) % 4294967296 - 2147483648

/-- `map<string, map<string, int>>`: node ↦ (neighbor ↦ edge weight). -/
abbrev Graph : Type := List (String × List (String × Int))

/-- `map<string,int>` of shortest distances. -/
abbrev Distances : Type := List (String × Int)

/-- `map<string,string>` of predecessors. -/
abbrev Predecessors : Type := List (String × String)

/-- Lookup with default (`operator[]`'s returned value when the key is
absent is value-initialised, i.e. `0`). -/
def lookupD (m : List (String × Int)) (k : String) (d : Int) : Int :=
  (List.lookup k m).getD d

/-- The insertion performed by `std::map::operator[]` when the key is
absent: value-initialise and add the entry. -/
def insertIfAbsent (m : List (String × Int)) (k : String) (d : Int) :
    List (String × Int) :=
  match List.lookup k m with
  | some _ => m
  | none => m ++ [(k, d)]

/-- `m[k] = v` on an association list: replace the entry if present,
append it otherwise. -/
def setk {β : Type} (m : List (String × β)) (k : String) (v : β) :
    List (String × β) :=
  match m with
  | [] => [(k, v)]
  | p :: t => if p.1 = k then (k, v) :: t else p :: setk t k v

/-- `std::string`'s `operator<` (lexicographic comparison of character
codes), on the underlying character lists. -/
def charListLtB : List Char → List Char → Bool
  | [], [] => false
  | [], _ :: _ => true
  | _ :: _, [] => false
  | a :: as, b :: bs =>
    if a.toNat < b.toNat then true
    else if b.toNat < a.toNat then false
    else charListLtB as bs

/-- `std::string`'s `operator<`. -/
def strLtB (a b : String) : Bool := charListLtB a.data b.data

/-- Strict lexicographic order on `(distance, node)` pairs: the order in
which `std::priority_queue<State, vector<State>, greater<State>>` pops. -/
def stateLtB (a b : Int × String) : Bool :=
  decide (a.1 < b.1) || (decide (a.1 = b.1) && strLtB a.2 b.2)

/-- Least element of a priority-queue content list (ties keep the earlier
element; tied elements are identical pairs, so the choice is immaterial). -/
def pqMinAux (x : Int × String) : List (Int × String) → Int × String
  | [] => x
  | y :: t => pqMinAux (if stateLtB y x then y else x) t

/-- `pq.top(); pq.pop()`: remove and return the least `(distance, node)`. -/
def popMin (pq : List (Int × String)) :
    Option ((Int × String) × List (Int × String)) :=
  match pq with
  | [] => none
  | x :: t =>
    let m := pqMinAux x t
    some (m, (x :: t).erase m)

/-- The solver's mutable state: `distances`, `predecessors`, and the
priority queue's contents. -/
structure DState : Type where
  dist : Distances
  pred : Predecessors
  pq : List (Int × String)

/-- The relaxation `for` loop body of `dijkstra_shortest_path`, iterated
over the adjacency list of the popped node `u` whose popped distance is `c`:

```cpp
int new_distance = current_distance + weight;
if (new_distance < distances[neighbor]) {
    distances[neighbor] = new_distance;
    predecessors[neighbor] = current_node;
    pq.push({new_distance, neighbor});
}
```
-/
def relaxList (c : Int) (u : String) :
    List (String × Int) → DState → DState
  | [], st => st
  | (v, w) :: rest, st =>
    let dv := lookupD st.dist v 0
    let dist1 := insertIfAbsent st.dist v 0
    let nd := wrap32 (c + w)
    if nd < dv then
      relaxList c u rest ⟨setk dist1 v nd, setk st.pred v u, (nd, v) :: st.pq⟩
    else
      relaxList c u rest ⟨dist1, st.pred, st.pq⟩

/-- One iteration of the main `while (!pq.empty())` loop:
pop the minimum, drop stale entries, otherwise relax the popped node's
outgoing edges (if it has an adjacency entry at all).  Returns `none` when
the queue is empty and the loop exits. -/
def dstep (g : Graph) (st : DState) : Option DState :=
  match popMin st.pq with
  | none => none
  | some ((c, u), pq') =>
    let du := lookupD st.dist u 0
    let dist1 := insertIfAbsent st.dist u 0
    if du < c then
      some ⟨dist1, st.pred, pq'⟩
    else
      match List.lookup u g with
      | none => some ⟨dist1, st.pred, pq'⟩
      | some adj => some (relaxList c u adj ⟨dist1, st.pred, pq'⟩)

/-- The main loop, driven by fuel; the state is returned unchanged when the
queue empties (the loop's exit) or the fuel runs out. -/
def drun (g : Graph) : Nat → DState → DState
  | 0, st => st
  | fuel + 1, st =>
    match dstep g st with
    | none => st
    | some st' => drun g fuel st'

/-- Total number of (neighbor, weight) entries of the graph. -/
def edgeCount (g : Graph) : Nat := g.foldr (fun p a => p.2.length + a) 0

/-- Fuel that dominates the loop's iteration count: every push of node `v`
accompanies a strict decrease of the stored 32-bit distance of `v`, so each
of the at most `edgeCount g` distinct relaxation targets is pushed fewer
than `2^32` times, and iterations = pops ≤ 1 + pushes. -/
def fuelBound (g : Graph) : Nat := 1 + edgeCount g * 4294967296

/-- The initial distance map: every outer key of the graph at `INT_MAX`,
then `distances[start_node] = 0`. -/
def initDistances (g : Graph) (start_node : String) : Distances :=
  setk (g.map fun p => (p.1, INTMAX)) start_node 0

/-- `dijkstra_shortest_path(graph, start_node)` — the whole solver. -/
def dijkstra_shortest_path (graph : Graph) (start_node : String) :
    Distances × Predecessors :=
  let st := drun graph (fuelBound graph)
    ⟨initDistances graph start_node, [], [(0, start_node)]⟩
  (st.dist, st.pred)

/-- The backward walk of `reconstruct_path`, with fuel.  The accumulator
holds the nodes pushed so far in reverse `push_back` order, so the C++
result `reverse (path ++ [start])` is `start :: acc`.  `some []` is the
explicit "unreachable" result; `none` models divergence of the C++ loop
(which the fuel `pred.length + 1` can never cut short, see the header). -/
def reconLoop (predecessors : Predecessors) (start_node : String) :
    Nat → String → List String → Option (List String)
  | 0, _, _ => none
  | fuel + 1, current, acc =>
    if current = start_node then
      some (start_node :: acc)
    else
      match List.lookup current predecessors with
      | none => some []
      | some p => reconLoop predecessors start_node fuel p (current :: acc)

/-- `reconstruct_path(predecessors, start_node, target_node)`. -/
def reconstruct_path (predecessors : Predecessors) (start_node : String)
    (target_node : String) : Option (List String) :=
  reconLoop predecessors start_node (predecessors.length + 1) target_node []

/-- Sum of edge weights along consecutive pairs of a node sequence
(`none` if some consecutive pair is not an edge of the graph).  This is the
spec's notion of the total weight of a path. -/
def pathWeight (g : Graph) : List String → Option Int
  | [] => some 0
  | [_] => some 0
  | a :: b :: rest =>
    match (List.lookup a g).bind (List.lookup b) with
    | none => none
    | some w => (pathWeight g (b :: rest)).map (w + ·)

/-- The sample graph of `main`. -/
def sample_graph : Graph :=
  [ ("A", [("B", 7), ("C", 9), ("F", 14)]),
    ("B", [("C", 10), ("D", 15)]),
    ("C", [("D", 11), ("F", 2)]),
    ("D", [("E", 6)]),
    ("E", [("F", 8)]),
    ("F", [("E", 9)]) ]

/-- A graph whose node `X` occurs only as an inner-map key (a neighbor),
never as an outer key.  `X` is reachable from `A` with shortest distance 5. -/
def graphNbOnly : Graph := [("A", [("X", 5)])]

/-- A graph with non-negative `int` weights on which the relaxation
`current_distance + weight` overflows back into the start node:
`A →(2^30) B →(INT_MAX) A`. -/
def graphOverflowStart : Graph :=
  [("A", [("B", 1073741824)]), ("B", [("A", 2147483647)])]

/-- A graph with non-negative `int` weights whose only path to `C` has
exact weight `2^31`, one more than `int` can hold: `A →(2^30) B →(2^30) C`. -/
def graphWrapSum : Graph :=
  [("A", [("B", 1073741824)]), ("B", [("C", 1073741824)]), ("C", [])]

/-- A graph with non-negative `int` weights on which overflow makes the
solver record the cyclic predecessor map `{B ↦ C, C ↦ B}`:
`A →(2^30) B`, `B →(2^30) C`, `C →(2^30) B`. -/
def graphPredCycle : Graph :=
  [("A", [("B", 1073741824)]), ("B", [("C", 1073741824)]), ("C", [("B", 1073741824)])]

/-- A graph with a node `X` that is unreachable from start `A` and occurs
only as an inner-map key of the (equally unreachable) node `B`. -/
def graphUnreachNbOnly : Graph := [("B", [("X", 1)])]

/-- `b` is a neighbor of `a` in the graph: the spec's directed-edge
relation. -/
def hasEdge (g : Graph) (a b : String) : Prop :=
  ∃ adj, List.lookup a g = some adj ∧ b ∈ adj.map Prod.fst

/-- `v` is reachable from `s` along directed edges (the spec's notion of a
path from the start existing). -/
def Reach (g : Graph) (s v : String) : Prop :=
  Relation.ReflTransGen (hasEdge g) s v

/-- Number of distance entries holding a value other than the sentinel. -/
def finCount (m : Distances) : Nat :=
  (m.filter fun p => !(p.2 == INTMAX)).length

/-- All node names occurring in the graph (outer keys and inner keys). -/
def nodesAux (g : Graph) : List String :=
  g.foldr (fun p acc => p.1 :: (p.2.map Prod.fst ++ acc)) []

/-- All node names that can ever acquire a distance entry: the start node
and every name occurring in the graph. -/
def allNodes (g : Graph) (s : String) : List String := s :: nodesAux g

/-- Every edge weight of the graph lies in `[0, M]`. -/
def WeightBound (g : Graph) (M : Int) : Prop :=
  ∀ p ∈ g, ∀ q ∈ p.2, 0 ≤ q.2 ∧ q.2 ≤ M

/-- Recorded distance of a node in a distance map (`0` when absent; along
chains covered by `StrictDescent` the lookups are present). -/
def dval (dist : Distances) (x : String) : Int := (List.lookup x dist).getD 0

/-- Every entry `(v, u)` of the predecessor map records a predecessor `u`
whose recorded distance is strictly smaller than `v`'s.  This is the
property the solver's relaxation establishes whenever no addition
overflows. -/
def StrictDescent (dist : Distances) (pm : Predecessors) : Prop :=
  ∀ p ∈ pm, dval dist p.2 < dval dist p.1

/-- Number of predecessor entries whose node has recorded distance
strictly below that of `x`: the termination measure of the backward walk. -/
def descMeasure (dist : Distances) (pm : Predecessors) (x : String) : Nat :=
  (pm.filter (fun p => decide (dval dist p.1 < dval dist x))).length

/-- The reachability invariant of the solver state: every queued node,
every predecessor-map key, and every distance entry not still at the
`INT_MAX` it was initialised with belongs to the reachable set. -/
structure ReachInv (g : Graph) (s : String) (st : DState) : Prop where
  pqR : ∀ e ∈ st.pq, Reach g s e.2
  distR : ∀ p ∈ st.dist, Reach g s p.1 ∨ (p.1 ∈ g.map Prod.fst ∧ p.2 = INTMAX)
  distK : ∀ k ∈ g.map Prod.fst, ∃ d, List.lookup k st.dist = some d
  predR : ∀ p ∈ st.pred, Reach g s p.1

/-- The no-overflow invariant of the solver state, for a weight bound `M`:
all finite distances and all queued distances lie in `[0, M * finCount]`
(`finCount` grows by one whenever a node first acquires a finite entry, so
`M * finCount` never exceeds `M * |allNodes|`); distance keys are distinct
names from `allNodes`; the start keeps distance `0` and no predecessor. -/
structure NumInv (g : Graph) (s : String) (M : Int) (st : DState) : Prop where
  keysN : (st.dist.map Prod.fst).Nodup
  keysSub : ∀ k ∈ st.dist.map Prod.fst, k ∈ allNodes g s
  distB : ∀ p ∈ st.dist,
    p.2 = INTMAX ∨ (0 ≤ p.2 ∧ p.2 ≤ M * (finCount st.dist : Int))
  pqB : ∀ e ∈ st.pq, 0 ≤ e.1 ∧ e.1 ≤ M * (finCount st.dist : Int)
  pqN : ∀ e ∈ st.pq, e.2 ∈ allNodes g s
  startZ : List.lookup s st.dist = some 0
  startP : List.lookup s st.pred = none

/-! ## Concrete evaluations of the solver -/

/-- C1: the claim says the recorded distance of every reachable node —
including nodes appearing only as inner-map keys — equals the minimum path
weight.  On `graphNbOnly` the only path from `A` to `X` is the single edge
of weight 5, yet the solver records distance 0 for `X` (the
`distances[neighbor]` lookup in the relaxation guard value-initialises the
missing entry to 0, and `5 < 0` fails) and gives `X` no predecessor. -/
theorem c1_neighbor_only_distance_zero :
    List.lookup "X" (dijkstra_shortest_path graphNbOnly "A").1 = some 0 ∧
    List.lookup "X" (dijkstra_shortest_path graphNbOnly "A").2 = none := by
  decide

/-- C4: the claim says that for every reachable target the reconstructed
path runs from the start to the target.  `X` is reachable from `A` in
`graphNbOnly`, but the solver never records a predecessor for `X`
(see `c1_neighbor_only_distance_zero`), so `reconstruct_path` returns the
empty "no path" result instead of the path `[A, X]`. -/
theorem c4_reconstruct_reachable_neighbor_only_empty :
    reconstruct_path (dijkstra_shortest_path graphNbOnly "A").2 "A" "X"
      = some [] := by
  decide

/-- C2 counterexample: the claim asserts `distance[start] = 0` for every
graph with non-negative weights.  On `graphOverflowStart` the relaxation
`2^30 + INT_MAX` wraps to the negative value `-1073741825`, which is
`< distances["A"] = 0`, so the start node's distance is overwritten. -/
theorem c2_overflow_start_distance_corrupted :
    List.lookup "A" (dijkstra_shortest_path graphOverflowStart "A").1
      = some (-1073741825) := by
  decide

/-- C7 counterexample: the claim asserts the start node never receives a
predecessor entry.  On `graphOverflowStart` the wrapped-negative relaxation
that corrupts the start distance also records `predecessors["A"] = "B"`. -/
theorem c7_overflow_start_gets_predecessor :
    List.lookup "A" (dijkstra_shortest_path graphOverflowStart "A").2
      = some "B" := by
  decide

/-- C8: the spec requires that additions never silently wrap.  On
`graphWrapSum` the only path to `C` has exact (unbounded-integer) weight
`2^30 + 2^30 = 2147483648`, but `new_distance = current_distance + weight`
wraps to `-2147483648`, and that wrapped value is recorded as `C`'s finite
distance, which is not the exact path-weight sum the claim requires. -/
theorem c8_addition_wraps_at_failing_input :
    List.lookup "C" (dijkstra_shortest_path graphWrapSum "A").1
      = some (-2147483648) ∧ (-2147483648 : Int) ≠ 1073741824 + 1073741824 := by
  decide

/-- C3 counterexample: the claim asserts every unreachable node has the
sentinel value in the returned distance map.  In `graphUnreachNbOnly` the
node `X` is unreachable from start `A` but is never a key of the outer
graph map, so it receives no distance entry at all (its lookup is `none`,
not `some INTMAX`). -/
theorem c3_unreachable_neighbor_only_absent :
    List.lookup "X" (dijkstra_shortest_path graphUnreachNbOnly "A").1
      = none := by
  decide

/-- C10 counterexample: the claim asserts the backward walk terminates for
every predecessor map the solver produces on non-negative weights.  On
`graphPredCycle` overflow makes the solver return the cyclic map
`{B ↦ C, C ↦ B}`, on which the C++ walk from target `B` loops forever;
in the model the walk exhausts its fuel and yields the divergence marker
`none` (see `reconLoop_pred_cycle_diverges`). -/
theorem c10_reconstruct_diverges_on_pred_cycle :
    reconstruct_path (dijkstra_shortest_path graphPredCycle "A").2 "A" "B"
      = none := by
  decide

/-- The predecessor map computed on `graphPredCycle` is exactly the cycle
`{B ↦ C, C ↦ B}`. -/
theorem pred_cycle_value :
    (dijkstra_shortest_path graphPredCycle "A").2 = [("B", "C"), ("C", "B")] := by
  decide

/-- On the cyclic predecessor map, the backward walk from `B` (or `C`)
returns `none` for every fuel value: the modelled `none` really is
divergence of the C++ loop, not an artifact of the particular fuel. -/
theorem reconLoop_pred_cycle_diverges (fuel : Nat) :
    (∀ acc, reconLoop [("B", "C"), ("C", "B")] "A" fuel "B" acc = none) ∧
    (∀ acc, reconLoop [("B", "C"), ("C", "B")] "A" fuel "C" acc = none) := by
  induction fuel with
  | zero => exact ⟨fun _ => rfl, fun _ => rfl⟩
  | succ n ih =>
    constructor
    · intro acc
      show reconLoop [("B", "C"), ("C", "B")] "A" n "C" ("B" :: acc) = none
      exact ih.2 _
    · intro acc
      show reconLoop [("B", "C"), ("C", "B")] "A" n "B" ("C" :: acc) = none
      exact ih.1 _

/-- C9: on the sample graph of `main` with start `A`, the solver computes
the expected distances A=0, B=7, C=9, D=20, E=20, F=11, and the
reconstructed path to `D` is `[A, C, D]` with total edge weight 20. -/
theorem c9_sample_graph_results :
    List.lookup "A" (dijkstra_shortest_path sample_graph "A").1 = some 0 ∧
    List.lookup "B" (dijkstra_shortest_path sample_graph "A").1 = some 7 ∧
    List.lookup "C" (dijkstra_shortest_path sample_graph "A").1 = some 9 ∧
    List.lookup "D" (dijkstra_shortest_path sample_graph "A").1 = some 20 ∧
    List.lookup "E" (dijkstra_shortest_path sample_graph "A").1 = some 20 ∧
    List.lookup "F" (dijkstra_shortest_path sample_graph "A").1 = some 11 ∧
    reconstruct_path (dijkstra_shortest_path sample_graph "A").2 "A" "D"
      = some ["A", "C", "D"] ∧
    pathWeight sample_graph ["A", "C", "D"] = some 20 := by
  decide

/-! ## Association-list lemmas -/

theorem lookup_mem {β : Type} {m : List (String × β)} {k : String} {v : β}
    (h : List.lookup k m = some v) : (k, v) ∈ m := by
  induction m with
  | nil => simp [List.lookup] at h
  | cons p t ih =>
    rw [List.lookup] at h
    cases hbe : (k == p.1) with
    | true =>
      rw [hbe] at h
      have hk : k = p.1 := eq_of_beq hbe
      have hv : p.2 = v := by injection h
      exact List.mem_cons.2 (Or.inl (by rw [hk, ← hv]))
    | false =>
      rw [hbe] at h
      exact List.mem_cons_of_mem _ (ih h)

theorem mem_keys_of_lookup {β : Type} {m : List (String × β)} {k : String}
    {v : β} (h : List.lookup k m = some v) : k ∈ m.map Prod.fst :=
  List.mem_map.2 ⟨(k, v), lookup_mem h, rfl⟩

theorem lookup_eq_none_of_not_mem_keys {β : Type} {m : List (String × β)}
    {k : String} (h : k ∉ m.map Prod.fst) : List.lookup k m = none := by
  induction m with
  | nil => rfl
  | cons p t ih =>
    rw [List.lookup]
    have hk : k ≠ p.1 := fun he => h (by simp [he])
    rw [beq_false_of_ne hk]
    exact ih (fun hm => h (by simp at hm ⊢; exact Or.inr hm))

theorem setk_lookup_self {β : Type} (m : List (String × β)) (k : String)
    (v : β) : List.lookup k (setk m k v) = some v := by
  induction m with
  | nil => simp [setk, List.lookup]
  | cons p t ih =>
    rw [setk]
    by_cases hp : p.1 = k
    · simp [hp, List.lookup]
    · have hk : k ≠ p.1 := fun he => hp he.symm
      simp only [if_neg hp, List.lookup, beq_false_of_ne hk]
      exact ih

theorem setk_lookup_ne {β : Type} (m : List (String × β)) (k k' : String)
    (v : β) (h : k' ≠ k) : List.lookup k' (setk m k v) = List.lookup k' m := by
  induction m with
  | nil => simp [setk, List.lookup, beq_false_of_ne h]
  | cons p t ih =>
    rw [setk]
    by_cases hp : p.1 = k
    · rw [if_pos hp]
      simp [List.lookup, hp, beq_false_of_ne h]
    · rw [if_neg hp, List.lookup, List.lookup]
      cases hbe : k' == p.1 with
      | true => rfl
      | false => exact ih

theorem setk_mem {β : Type} {m : List (String × β)} {k : String} {v : β}
    {p : String × β} (h : p ∈ setk m k v) : p = (k, v) ∨ p ∈ m := by
  induction m with
  | nil => simpa [setk] using h
  | cons q t ih =>
    rw [setk] at h
    by_cases hq : q.1 = k
    · rw [if_pos hq] at h
      rcases List.mem_cons.1 h with h1 | h1
      · exact Or.inl h1
      · exact Or.inr (List.mem_cons_of_mem _ h1)
    · rw [if_neg hq] at h
      rcases List.mem_cons.1 h with h1 | h1
      · exact Or.inr (h1 ▸ List.mem_cons_self _ _)
      · rcases ih h1 with h2 | h2
        · exact Or.inl h2
        · exact Or.inr (List.mem_cons_of_mem _ h2)

theorem setk_keys_of_mem {β : Type} {m : List (String × β)} {k : String}
    (v : β) (h : k ∈ m.map Prod.fst) :
    (setk m k v).map Prod.fst = m.map Prod.fst := by
  induction m with
  | nil => simp at h
  | cons q t ih =>
    rw [setk]
    by_cases hq : q.1 = k
    · rw [if_pos hq]
      simp [hq]
    · rw [if_neg hq]
      have hk : k ∈ t.map Prod.fst := by
        simp at h
        rcases h with h1 | h1
        · exact absurd h1.symm hq
        · simpa using h1
      simp [ih hk]

theorem setk_keys_of_not_mem {β : Type} {m : List (String × β)} {k : String}
    (v : β) (h : k ∉ m.map Prod.fst) :
    (setk m k v).map Prod.fst = m.map Prod.fst ++ [k] := by
  induction m with
  | nil => simp [setk]
  | cons q t ih =>
    rw [setk]
    have hq : q.1 ≠ k := fun he => h (by simp [he])
    rw [if_neg hq]
    have hk : k ∉ t.map Prod.fst := fun hm => h (by simp at hm ⊢; exact Or.inr hm)
    simp [ih hk]

theorem insertIfAbsent_of_some {m : List (String × Int)} {k : String}
    {v : Int} (d : Int) (h : List.lookup k m = some v) :
    insertIfAbsent m k d = m := by
  rw [insertIfAbsent, h]

theorem insertIfAbsent_of_none {m : List (String × Int)} {k : String}
    (d : Int) (h : List.lookup k m = none) :
    insertIfAbsent m k d = m ++ [(k, d)] := by
  rw [insertIfAbsent, h]

theorem lookup_append_of_some {β : Type} {m l : List (String × β)}
    {k : String} {v : β} (h : List.lookup k m = some v) :
    List.lookup k (m ++ l) = some v := by
  induction m with
  | nil => simp [List.lookup] at h
  | cons p t ih =>
    rw [List.lookup] at h
    rw [List.cons_append, List.lookup]
    cases hbe : (k == p.1) with
    | true => rw [hbe] at h; exact h
    | false => rw [hbe] at h; exact ih h

theorem lookup_append_of_none {β : Type} {m l : List (String × β)}
    {k : String} (h : List.lookup k m = none) :
    List.lookup k (m ++ l) = List.lookup k l := by
  induction m with
  | nil => simp
  | cons p t ih =>
    rw [List.lookup] at h
    rw [List.cons_append, List.lookup]
    cases hbe : (k == p.1) with
    | true => rw [hbe] at h; exact Option.noConfusion h
    | false => rw [hbe] at h; exact ih h

/-! ## The reconstructor: target = start, dead chains, termination -/

/-- C6: for every predecessor map and start node, reconstructing the path
to the start node itself yields the single-element sequence `[start]`
(the loop guard `current != start` fails immediately). -/
theorem c6_target_equals_start_singleton (pm : Predecessors) (s : String) :
    reconstruct_path pm s s = some [s] := by
  rw [reconstruct_path, reconLoop, if_pos rfl]

/-- Following an explicit predecessor chain whose end has no predecessor
entry, the backward walk returns the empty "no path" result, for any
accumulator and any sufficient fuel. -/
theorem reconLoop_dead_chain (pm : Predecessors) (s : String) (c : Nat → String)
    (k : Nat)
    (hstep : ∀ i, i < k → c i ≠ s ∧ List.lookup (c i) pm = some (c (i + 1)))
    (hend : c k ≠ s) (hdead : List.lookup (c k) pm = none) :
    ∀ n j acc fuel, j + n = k → n < fuel →
      reconLoop pm s fuel (c j) acc = some [] := by
  intro n
  induction n with
  | zero =>
    intro j acc fuel hjk hf
    have hj : j = k := by omega
    subst hj
    cases fuel with
    | zero => omega
    | succ f => rw [reconLoop, if_neg hend, hdead]
  | succ n ih =>
    intro j acc fuel hjk hf
    have hj : j < k := by omega
    obtain ⟨hne, hlk⟩ := hstep j hj
    cases fuel with
    | zero => omega
    | succ f =>
      rw [reconLoop, if_neg hne, hlk]
      exact ih (j + 1) (c j :: acc) f (by omega) (by omega)

/-- Two positions of a predecessor chain with equal nodes stay equal when
both are advanced (the walk is deterministic). -/
theorem chain_shift (pm : Predecessors) (s : String) (c : Nat → String)
    (k : Nat)
    (hstep : ∀ i, i < k → c i ≠ s ∧ List.lookup (c i) pm = some (c (i + 1))) :
    ∀ m i j, c i = c j → i + m ≤ k → j + m ≤ k → c (i + m) = c (j + m) := by
  intro m
  induction m with
  | zero => intro i j h _ _; simpa using h
  | succ m ih =>
    intro i j h hik hjk
    have h1 : c (i + m) = c (j + m) := ih i j h (by omega) (by omega)
    have h2 := (hstep (i + m) (by omega)).2
    have h3 := (hstep (j + m) (by omega)).2
    rw [h1, h3] at h2
    have h4 : c (i + m + 1) = c (j + m + 1) := by
      injection h2 with h7
      exact h7.symm
    have h5 : i + m + 1 = i + (m + 1) := by omega
    have h6 : j + m + 1 = j + (m + 1) := by omega
    rw [h5, h6] at h4
    exact h4

/-- The nodes of a predecessor chain that ends at a node without an entry
are pairwise distinct: a repetition would force the deterministic walk to
cycle and never reach the chain's dead end. -/
theorem chain_inj (pm : Predecessors) (s : String) (c : Nat → String)
    (k : Nat)
    (hstep : ∀ i, i < k → c i ≠ s ∧ List.lookup (c i) pm = some (c (i + 1)))
    (hdead : List.lookup (c k) pm = none) :
    ∀ i j, i < j → j ≤ k → c i ≠ c j := by
  intro i j hij hjk heq
  have h1 : c (i + (k - j)) = c (j + (k - j)) :=
    chain_shift pm s c k hstep (k - j) i j heq (by omega) (by omega)
  have h2 : j + (k - j) = k := by omega
  rw [h2] at h1
  have h3 : i + (k - j) < k := by omega
  have h4 := (hstep _ h3).2
  rw [h1, hdead] at h4
  exact Option.noConfusion h4

/-- A dead-ended predecessor chain has at most `pm.length` steps: its
nodes before the dead end are pairwise distinct keys of the map. -/
theorem chain_le_length (pm : Predecessors) (c : Nat → String) (k : Nat)
    (hlk : ∀ i, i < k → List.lookup (c i) pm = some (c (i + 1)))
    (hinj : ∀ i j, i < j → j ≤ k → c i ≠ c j) : k ≤ pm.length := by
  have h1 : ((Finset.range k).image c).card = k := by
    rw [Finset.card_image_of_injOn, Finset.card_range]
    intro i hi j hj hij
    by_contra hne
    rcases Nat.lt_or_ge i j with h | h
    · exact hinj i j h (by simp at hj; omega) hij
    · have hji : j < i := by omega
      exact hinj j i hji (by simp at hi; omega) hij.symm
  have h2 : (Finset.range k).image c ⊆ (pm.map Prod.fst).toFinset := by
    intro x hx
    simp only [Finset.mem_image, Finset.mem_range] at hx
    obtain ⟨i, hi, rfl⟩ := hx
    exact List.mem_toFinset.2 (mem_keys_of_lookup (hlk i hi))
  have h3 : ((Finset.range k).image c).card ≤ (pm.map Prod.fst).toFinset.card :=
    Finset.card_le_card h2
  have h4 : (pm.map Prod.fst).toFinset.card ≤ (pm.map Prod.fst).length :=
    List.toFinset_card_le _
  have h5 : (pm.map Prod.fst).length = pm.length := by simp
  omega

/-- C5: for every predecessor map, start and target, if the backward
predecessor chain from the target reaches a node other than the start that
has no predecessor entry, then `reconstruct_path` returns the empty
sequence (the explicit "no path" result, not an exception; the traversal
is read-only by construction). -/
theorem c5_dead_chain_returns_empty (pm : Predecessors) (s t : String)
    (k : Nat) (c : Nat → String) (h0 : c 0 = t)
    (hstep : ∀ i, i < k → c i ≠ s ∧ List.lookup (c i) pm = some (c (i + 1)))
    (hend : c k ≠ s) (hdead : List.lookup (c k) pm = none) :
    reconstruct_path pm s t = some [] := by
  have hinj := chain_inj pm s c k hstep hdead
  have hk : k ≤ pm.length :=
    chain_le_length pm c k (fun i hi => (hstep i hi).2) hinj
  rw [reconstruct_path, ← h0]
  exact reconLoop_dead_chain pm s c k hstep hend hdead k 0 [] (pm.length + 1)
    (by omega) (by omega)

/-- Witness for C5: on the map `{B ↦ C}` with start `A` and target `B`,
the chain `B, C` dies at `C ≠ A`, and the walk returns the empty path. -/
theorem c5_witness :
    reconstruct_path [("B", "C")] "A" "B" = some [] :=
  c5_dead_chain_returns_empty [("B", "C")] "A" "B" 1
    (fun i => if i = 0 then "B" else "C") rfl (by decide) (by decide) (by decide)

theorem filterLenMono {α : Type} (l : List α) (P Q : α → Bool)
    (h : ∀ x ∈ l, P x = true → Q x = true) :
    (l.filter P).length ≤ (l.filter Q).length := by
  induction l with
  | nil => simp
  | cons a t ih =>
    have ht : ∀ x ∈ t, P x = true → Q x = true :=
      fun x hx => h x (List.mem_cons_of_mem _ hx)
    rw [List.filter_cons, List.filter_cons]
    cases hP : P a with
    | true =>
      rw [h a (List.mem_cons_self _ _) hP]
      simpa using ih ht
    | false =>
      cases hQ : Q a with
      | true =>
        simp only [cond_true, cond_false, List.length_cons]
        exact Nat.le_succ_of_le (ih ht)
      | false => simpa using ih ht

theorem filterLenLt {α : Type} (l : List α) (P Q : α → Bool)
    (himp : ∀ x ∈ l, P x = true → Q x = true) (y : α) (hmem : y ∈ l)
    (hQ : Q y = true) (hP : P y = false) :
    (l.filter P).length < (l.filter Q).length := by
  induction l with
  | nil => cases hmem
  | cons a t ih =>
    have ht : ∀ x ∈ t, P x = true → Q x = true :=
      fun x hx => himp x (List.mem_cons_of_mem _ hx)
    rw [List.filter_cons, List.filter_cons]
    rcases List.mem_cons.1 hmem with rfl | hmem'
    · rw [hP, hQ]
      simpa using Nat.lt_succ_of_le (filterLenMono t P Q ht)
    · cases hPa : P a with
      | true =>
        rw [himp a (List.mem_cons_self _ _) hPa]
        simpa using ih ht hmem'
      | false =>
        cases hQa : Q a with
        | true =>
          simp only [cond_true, cond_false, List.length_cons]
          exact Nat.lt_succ_of_lt (ih ht hmem')
        | false => simpa using ih ht hmem'

/-- The backward walk halts (returns `some` result) for every start,
target, accumulator and sufficient fuel, whenever the predecessor map
strictly descends under the recorded distances: each step strictly shrinks
`descMeasure`, and the first step from a map key leaves at least one entry
uncounted. -/
theorem reconLoop_isSome_of_descent (dist : Distances) (pm : Predecessors)
    (s : String) (hsd : StrictDescent dist pm) :
    ∀ fuel cur acc, 1 ≤ fuel →
      (cur ∈ pm.map Prod.fst → descMeasure dist pm cur + 2 ≤ fuel) →
      (reconLoop pm s fuel cur acc).isSome = true := by
  intro fuel
  induction fuel with
  | zero => intro cur acc h1 _; omega
  | succ f ih =>
    intro cur acc h1 hk
    rw [reconLoop]
    by_cases hcs : cur = s
    · rw [if_pos hcs]; rfl
    · rw [if_neg hcs]
      cases hlk : List.lookup cur pm with
      | none => rfl
      | some u =>
        show (reconLoop pm s f u (cur :: acc)).isSome = true
        have hcur : (cur, u) ∈ pm := lookup_mem hlk
        have hcurk : cur ∈ pm.map Prod.fst := List.mem_map.2 ⟨_, hcur, rfl⟩
        have hm := hk hcurk
        have hdu : dval dist u < dval dist cur := hsd _ hcur
        apply ih
        · omega
        · intro huk
          obtain ⟨q, hq, hq1⟩ := List.mem_map.1 huk
          have hlt : descMeasure dist pm u < descMeasure dist pm cur := by
            unfold descMeasure
            apply filterLenLt pm _ _ _ q hq
            · exact decide_eq_true (hq1 ▸ hdu)
            · rw [hq1]
              exact decide_eq_false (lt_irrefl _)
            · intro x _ hPx
              exact decide_eq_true (lt_trans (of_decide_eq_true hPx) hdu)
          omega

/-- C10 (amended): for every distance map and predecessor map in which
each recorded predecessor has strictly smaller recorded distance than its
node, `reconstruct_path` terminates (produces a result) for every start
and target node.  (`dijkstra_shortest_path`'s output enjoys this strict
descent only in the absence of overflow; see
`c10_reconstruct_diverges_on_pred_cycle` for an overflowing graph whose
predecessor map is cyclic and makes the walk diverge.) -/
theorem c10_amended_descent_terminates (dist : Distances) (pm : Predecessors)
    (hsd : StrictDescent dist pm) (s t : String) :
    (reconstruct_path pm s t).isSome = true := by
  rw [reconstruct_path]
  apply reconLoop_isSome_of_descent dist pm s hsd
  · omega
  · intro htk
    obtain ⟨q, hq, hq1⟩ := List.mem_map.1 htk
    have h1 : descMeasure dist pm t < pm.length := by
      have h2 : (pm.filter (fun p => decide (dval dist p.1 < dval dist t))).length
          < (pm.filter (fun _ => true)).length := by
        apply filterLenLt pm _ _ (fun x _ _ => rfl) q hq rfl
        rw [hq1]
        exact decide_eq_false (lt_irrefl _)
      simpa [descMeasure] using h2
    omega

/-- Witness for the amended C10: the map `{B ↦ A}` with distances
`A = 0 < 7 = B` strictly descends, and the walk from `B` terminates. -/
theorem c10_amended_witness :
    (reconstruct_path [("B", "A")] "A" "B").isSome = true :=
  c10_amended_descent_terminates [("A", 0), ("B", 7)] [("B", "A")]
    (by unfold StrictDescent; decide) "A" "B"

/-! ## Reachability: unreachable nodes are never touched -/

theorem insertIfAbsent_mem {m : List (String × Int)} {k : String} {d : Int}
    {p : String × Int} (h : p ∈ insertIfAbsent m k d) : p ∈ m ∨ p = (k, d) := by
  rw [insertIfAbsent] at h
  cases hl : List.lookup k m with
  | some v => rw [hl] at h; exact Or.inl h
  | none =>
    rw [hl] at h
    rcases List.mem_append.1 h with h1 | h1
    · exact Or.inl h1
    · exact Or.inr (by simpa using h1)

theorem insertIfAbsent_lookup_some {m : List (String × Int)} {k k' : String}
    {v : Int} (d : Int) (h : List.lookup k' m = some v) :
    List.lookup k' (insertIfAbsent m k d) = some v := by
  rw [insertIfAbsent]
  cases hl : List.lookup k m with
  | some w => exact h
  | none => exact lookup_append_of_some h

theorem setk_lookup_ex {β : Type} (m : List (String × β)) (k k' : String)
    (v : β) (h : ∃ d, List.lookup k' m = some d) :
    ∃ d, List.lookup k' (setk m k v) = some d := by
  by_cases hk : k' = k
  · exact ⟨v, hk ▸ setk_lookup_self m k v⟩
  · obtain ⟨d, hd⟩ := h
    exact ⟨d, (setk_lookup_ne m k k' v hk).trans hd⟩

theorem pqMinAux_mem (t : List (Int × String)) :
    ∀ x, pqMinAux x t ∈ x :: t := by
  induction t with
  | nil => intro x; rw [pqMinAux]; exact List.mem_cons_self _ _
  | cons y t' ih =>
    intro x
    rw [pqMinAux]
    by_cases hc : stateLtB y x
    · rw [if_pos hc]
      exact List.mem_cons_of_mem _ (ih y)
    · rw [if_neg hc]
      rcases List.mem_cons.1 (ih x) with h1 | h1
      · rw [h1]; exact List.mem_cons_self _ _
      · exact List.mem_cons_of_mem _ (List.mem_cons_of_mem _ h1)

theorem popMin_mem {pq : List (Int × String)} {m : Int × String}
    {rest : List (Int × String)} (h : popMin pq = some (m, rest)) : m ∈ pq := by
  cases pq with
  | nil => exact Option.noConfusion h
  | cons x t =>
    rw [popMin] at h
    have h1 : m = pqMinAux x t := by injection h with h2; injection h2 with h3 h4; exact h3.symm
    rw [h1]
    exact pqMinAux_mem t x

theorem popMin_rest_sub {pq : List (Int × String)} {m : Int × String}
    {rest : List (Int × String)} (h : popMin pq = some (m, rest)) :
    ∀ e ∈ rest, e ∈ pq := by
  cases pq with
  | nil => exact Option.noConfusion h
  | cons x t =>
    rw [popMin] at h
    have h1 : rest = (x :: t).erase (pqMinAux x t) := by
      injection h with h2; injection h2 with h3 h4; exact h4.symm
    intro e he
    rw [h1] at he
    exact List.mem_of_mem_erase he

theorem relaxList_reach (g : Graph) (s : String) (c : Int) (u : String)
    (hu : Reach g s u) :
    ∀ adj : List (String × Int), (∀ q ∈ adj, hasEdge g u q.1) →
      ∀ st : DState, ReachInv g s st → ReachInv g s (relaxList c u adj st) := by
  intro adj
  induction adj with
  | nil => intro _ st hInv; exact hInv
  | cons q rest ih =>
    intro hadj st hInv
    obtain ⟨v, w⟩ := q
    have hv : Reach g s v :=
      Relation.ReflTransGen.tail hu (hadj (v, w) (List.mem_cons_self _ _) :)
    have hrest : ∀ q' ∈ rest, hasEdge g u q'.1 :=
      fun q' hq' => hadj q' (List.mem_cons_of_mem _ hq')
    have hmid : ∀ p ∈ insertIfAbsent st.dist v 0,
        Reach g s p.1 ∨ (p.1 ∈ g.map Prod.fst ∧ p.2 = INTMAX) := by
      intro p hp
      rcases insertIfAbsent_mem hp with h1 | h1
      · exact hInv.distR p h1
      · exact Or.inl (by rw [h1]; exact hv)
    have hmidK : ∀ k ∈ g.map Prod.fst,
        ∃ d, List.lookup k (insertIfAbsent st.dist v 0) = some d := by
      intro k hk
      obtain ⟨d, hd⟩ := hInv.distK k hk
      exact ⟨d, insertIfAbsent_lookup_some 0 hd⟩
    rw [relaxList]
    by_cases hc : wrap32 (c + w) < lookupD st.dist v 0
    · rw [if_pos hc]
      apply ih hrest
      refine ⟨?_, ?_, ?_, ?_⟩
      · intro e he
        rcases List.mem_cons.1 he with h1 | h1
        · rw [h1]; exact hv
        · exact hInv.pqR e h1
      · intro p hp
        rcases setk_mem hp with h1 | h1
        · exact Or.inl (by rw [h1]; exact hv)
        · exact hmid p h1
      · intro k hk
        exact setk_lookup_ex _ _ _ _ (hmidK k hk)
      · intro p hp
        rcases setk_mem hp with h1 | h1
        · subst h1; exact hv
        · exact hInv.predR p h1
    · rw [if_neg hc]
      exact ih hrest _ ⟨hInv.pqR, hmid, hmidK, hInv.predR⟩

theorem dstep_reach (g : Graph) (s : String) {st st' : DState}
    (hInv : ReachInv g s st) (h : dstep g st = some st') : ReachInv g s st' := by
  cases hpop : popMin st.pq with
  | none =>
    rw [dstep, hpop] at h
    exact Option.noConfusion h
  | some pr =>
    obtain ⟨⟨c, u⟩, pq'⟩ := pr
    have h2 : (if lookupD st.dist u 0 < c then
          some (⟨insertIfAbsent st.dist u 0, st.pred, pq'⟩ : DState)
        else
          match List.lookup u g with
          | none => some (⟨insertIfAbsent st.dist u 0, st.pred, pq'⟩ : DState)
          | some adj =>
            some (relaxList c u adj ⟨insertIfAbsent st.dist u 0, st.pred, pq'⟩))
        = some st' := by
      rw [dstep, hpop] at h
      exact h
    clear h
    have hu : Reach g s u := hInv.pqR (c, u) (popMin_mem hpop)
    have hpq' : ∀ e ∈ pq', Reach g s e.2 :=
      fun e he => hInv.pqR e (popMin_rest_sub hpop e he)
    have hmid : ∀ p ∈ insertIfAbsent st.dist u 0,
        Reach g s p.1 ∨ (p.1 ∈ g.map Prod.fst ∧ p.2 = INTMAX) := by
      intro p hp
      rcases insertIfAbsent_mem hp with h1 | h1
      · exact hInv.distR p h1
      · exact Or.inl (by rw [h1]; exact hu)
    have hmidK : ∀ k ∈ g.map Prod.fst,
        ∃ d, List.lookup k (insertIfAbsent st.dist u 0) = some d := by
      intro k hk
      obtain ⟨d, hd⟩ := hInv.distK k hk
      exact ⟨d, insertIfAbsent_lookup_some 0 hd⟩
    by_cases hst : lookupD st.dist u 0 < c
    · rw [if_pos hst] at h2
      injection h2 with h1
      rw [← h1]
      exact ⟨hpq', hmid, hmidK, hInv.predR⟩
    · rw [if_neg hst] at h2
      cases hlk : List.lookup u g with
      | none =>
        rw [hlk] at h2
        injection h2 with h1
        rw [← h1]
        exact ⟨hpq', hmid, hmidK, hInv.predR⟩
      | some adj =>
        rw [hlk] at h2
        injection h2 with h1
        rw [← h1]
        have hadj : ∀ q ∈ adj, hasEdge g u q.1 :=
          fun q hq => ⟨adj, hlk, List.mem_map.2 ⟨q, hq, rfl⟩⟩
        exact relaxList_reach g s c u hu adj hadj _ ⟨hpq', hmid, hmidK, hInv.predR⟩

theorem drun_reach (g : Graph) (s : String) :
    ∀ (fuel : Nat) (st : DState), ReachInv g s st →
      ReachInv g s (drun g fuel st) := by
  intro fuel
  induction fuel with
  | zero => intro st h; exact h
  | succ f ih =>
    intro st h
    rw [drun]
    cases hd : dstep g st with
    | none => exact h
    | some st' => exact ih st' (dstep_reach g s h hd)

theorem lookup_mapInit (g : Graph) :
    ∀ k ∈ g.map Prod.fst,
      List.lookup k (g.map fun p => (p.1, INTMAX)) = some INTMAX := by
  induction g with
  | nil => intro k hk; cases hk
  | cons q t ih =>
    intro k hk
    rw [List.map_cons, List.lookup]
    cases hbe : (k == q.1) with
    | true => rfl
    | false =>
      rw [List.map_cons] at hk
      rcases List.mem_cons.1 hk with h1 | h1
      · rw [h1, beq_self_eq_true] at hbe
        exact Bool.noConfusion hbe
      · exact ih k h1

theorem init_reach (g : Graph) (s : String) :
    ReachInv g s ⟨initDistances g s, [], [(0, s)]⟩ := by
  refine ⟨?_, ?_, ?_, ?_⟩
  · intro e he
    rcases List.mem_cons.1 he with h1 | h1
    · rw [h1]; exact Relation.ReflTransGen.refl
    · cases h1
  · intro p hp
    rcases setk_mem hp with h1 | h1
    · exact Or.inl (h1 ▸ Relation.ReflTransGen.refl)
    · obtain ⟨q, hq, hq1⟩ := List.mem_map.1 h1
      right
      constructor
      · rw [← hq1]
        exact List.mem_map.2 ⟨q, hq, rfl⟩
      · rw [← hq1]
  · intro k hk
    exact setk_lookup_ex _ _ _ _ ⟨INTMAX, lookup_mapInit g k hk⟩
  · intro p hp
    cases hp

/-- C3 (amended): every node unreachable from the start has no entry in
the returned predecessor map; if it is a key of the outer graph map its
distance entry still holds the sentinel `INT_MAX`, and otherwise it has no
distance entry at all (rather than a sentinel entry, which the original
claim asserted for all unreachable nodes — see
`c3_unreachable_neighbor_only_absent`). -/
theorem c3_amended_unreachable_sentinel_or_absent (g : Graph) (s v : String)
    (hnr : ¬ Reach g s v) :
    (v ∈ g.map Prod.fst →
      List.lookup v (dijkstra_shortest_path g s).1 = some INTMAX) ∧
    (v ∉ g.map Prod.fst →
      List.lookup v (dijkstra_shortest_path g s).1 = none) ∧
    List.lookup v (dijkstra_shortest_path g s).2 = none := by
  have hInv : ReachInv g s (drun g (fuelBound g)
      ⟨initDistances g s, [], [(0, s)]⟩) :=
    drun_reach g s (fuelBound g) _ (init_reach g s)
  refine ⟨?_, ?_, ?_⟩
  · intro hvk
    obtain ⟨d, hd⟩ := hInv.distK v hvk
    rcases hInv.distR (v, d) (lookup_mem hd) with h1 | h1
    · exact absurd h1 hnr
    · have h3 : d = INTMAX := h1.2
      rw [dijkstra_shortest_path, hd, h3]
  · intro hvk
    rw [dijkstra_shortest_path]
    cases hd : List.lookup v (drun g (fuelBound g)
        ⟨initDistances g s, [], [(0, s)]⟩).dist with
    | none => rfl
    | some d =>
      rcases hInv.distR (v, d) (lookup_mem hd) with h1 | h1
      · exact absurd h1 hnr
      · exact absurd h1.1 hvk
  · rw [dijkstra_shortest_path]
    cases hd : List.lookup v (drun g (fuelBound g)
        ⟨initDistances g s, [], [(0, s)]⟩).pred with
    | none => rfl
    | some u => exact absurd (hInv.predR (v, u) (lookup_mem hd)) hnr

/-- Witness for the amended C3: in `graphUnreachNbOnly` the node `X` is
unreachable from `A` and not an outer key, so it is absent from both
returned maps. -/
theorem c3_amended_witness :
    List.lookup "X" (dijkstra_shortest_path graphUnreachNbOnly "A").1 = none ∧
    List.lookup "X" (dijkstra_shortest_path graphUnreachNbOnly "A").2 = none := by
  have hnr : ¬ Reach graphUnreachNbOnly "A" "X" := by
    intro h
    rcases Relation.ReflTransGen.cases_head h with h1 | ⟨b, ⟨adj, hadj, _⟩, _⟩
    · exact absurd h1 (by decide)
    · have hnone : List.lookup "A" graphUnreachNbOnly = none := rfl
      rw [hnone] at hadj
      exact Option.noConfusion hadj
  have h := c3_amended_unreachable_sentinel_or_absent graphUnreachNbOnly "A" "X" hnr
  exact ⟨h.2.1 (by decide), h.2.2⟩

/-! ## Numeric bounds: no overflow under bounded weights -/

theorem nodesAux_outer {g : Graph} {p : String × List (String × Int)}
    (h : p ∈ g) : p.1 ∈ nodesAux g := by
  induction g with
  | nil => cases h
  | cons q t ih =>
    rw [nodesAux, List.foldr_cons]
    rcases List.mem_cons.1 h with h1 | h1
    · rw [h1]; exact List.mem_cons_self _ _
    · exact List.mem_cons_of_mem _ (List.mem_append_right _ (ih h1))

theorem nodesAux_inner {g : Graph} {p : String × List (String × Int)}
    {q : String × Int} (h : p ∈ g) (hq : q ∈ p.2) : q.1 ∈ nodesAux g := by
  induction g with
  | nil => cases h
  | cons r t ih =>
    rw [nodesAux, List.foldr_cons]
    rcases List.mem_cons.1 h with h1 | h1
    · subst h1
      exact List.mem_cons_of_mem _
        (List.mem_append_left _ (List.mem_map.2 ⟨q, hq, rfl⟩))
    · exact List.mem_cons_of_mem _ (List.mem_append_right _ (ih h1))

theorem lookup_some_of_mem_keys {β : Type} {m : List (String × β)}
    {k : String} (h : k ∈ m.map Prod.fst) : ∃ v, List.lookup k m = some v := by
  induction m with
  | nil => cases h
  | cons p t ih =>
    rw [List.lookup]
    cases hbe : (k == p.1) with
    | true => exact ⟨p.2, rfl⟩
    | false =>
      rw [List.map_cons] at h
      rcases List.mem_cons.1 h with h1 | h1
      · rw [h1, beq_self_eq_true] at hbe
        exact Bool.noConfusion hbe
      · exact ih h1

theorem setk_of_lookup_none {β : Type} {m : List (String × β)} {k : String}
    (v : β) (h : List.lookup k m = none) : setk m k v = m ++ [(k, v)] := by
  induction m with
  | nil => rfl
  | cons p t ih =>
    rw [List.lookup] at h
    rw [setk]
    have hp : p.1 ≠ k := by
      intro he
      rw [he, beq_self_eq_true] at h
      exact Option.noConfusion h
    rw [if_neg hp, List.cons_append]
    have ht : List.lookup k t = none := by
      rcases hbe : (k == p.1) with _ | _
      · rw [hbe] at h; exact h
      · exact absurd (eq_of_beq hbe).symm hp
    rw [ih ht]

theorem finCount_append_zero (m : Distances) (k : String) :
    finCount (m ++ [(k, 0)]) = finCount m + 1 := by
  rw [finCount, finCount, List.filter_append, List.length_append]
  rfl

theorem finCount_insertIfAbsent_ge (m : Distances) (k : String) :
    finCount m ≤ finCount (insertIfAbsent m k 0) := by
  rw [insertIfAbsent]
  cases hl : List.lookup k m with
  | some v => exact Nat.le_refl _
  | none => rw [finCount_append_zero]; exact Nat.le_succ _

theorem finCount_setk {m : Distances} {k : String} {w : Int} (v : Int)
    (hl : List.lookup k m = some w) (hv : v ≠ INTMAX) :
    finCount (setk m k v) = finCount m + (if w = INTMAX then 1 else 0) := by
  induction m with
  | nil => exact Option.noConfusion hl
  | cons p t ih =>
    rw [List.lookup] at hl
    rw [setk]
    by_cases hp : p.1 = k
    · have hw : p.2 = w := by
        rw [hp, beq_self_eq_true] at hl
        injection hl
      subst hw
      rw [if_pos hp]
      simp only [finCount, List.filter_cons]
      by_cases hwi : p.2 = INTMAX
      · simp [hwi, hv]
      · simp [hwi, hv]
    · have hbe : (k == p.1) = false := by
        cases hbe2 : (k == p.1) with
        | true => exact absurd (eq_of_beq hbe2).symm hp
        | false => rfl
      rw [hbe] at hl
      rw [if_neg hp]
      have hrec := ih hl
      simp only [finCount, List.filter_cons] at hrec ⊢
      by_cases hpf : p.2 = INTMAX
      · simp [hpf, hrec]
      · simp [hpf, hrec]
        omega

/-- In the overflow-free range, 32-bit wrap-around is the identity. -/
theorem wrap32_id {x : Int} (h0 : 0 ≤ x) (h1 : x < 2147483648) :
    wrap32 x = x := by
  rw [wrap32]
  omega

theorem nodup_append_singleton {α : Type} {l : List α} {a : α}
    (h : l.Nodup) (ha : a ∉ l) : (l ++ [a]).Nodup :=
  (List.perm_append_singleton a l).nodup_iff.2 (List.nodup_cons.2 ⟨ha, h⟩)

theorem finCount_le_allNodes {g : Graph} {s : String} {m : Distances}
    (hN : (m.map Prod.fst).Nodup)
    (hS : ∀ k ∈ m.map Prod.fst, k ∈ allNodes g s) :
    finCount m ≤ (allNodes g s).length := by
  have h1 : finCount m ≤ m.length := List.length_filter_le _ _
  have h2 : (m.map Prod.fst).length = m.length := List.length_map _ _
  have h3 : (m.map Prod.fst).toFinset.card = (m.map Prod.fst).length :=
    List.toFinset_card_of_nodup hN
  have h4 : (m.map Prod.fst).toFinset ⊆ (allNodes g s).toFinset :=
    fun x hx => List.mem_toFinset.2 (hS x (List.mem_toFinset.1 hx))
  have h5 := Finset.card_le_card h4
  have h6 := List.toFinset_card_le (allNodes g s)
  omega

theorem numInv_insert (g : Graph) (s : String) (M : Int) (hM : 0 ≤ M)
    (st : DState) (hInv : NumInv g s M st) (x : String) (hx : x ∈ allNodes g s)
    (pq₂ : List (Int × String)) (hpq₂ : ∀ e ∈ pq₂, e ∈ st.pq) :
    NumInv g s M ⟨insertIfAbsent st.dist x 0, st.pred, pq₂⟩ := by
  cases hl : List.lookup x st.dist with
  | some v =>
    have he : insertIfAbsent st.dist x 0 = st.dist := insertIfAbsent_of_some 0 hl
    rw [he]
    exact ⟨hInv.keysN, hInv.keysSub, hInv.distB,
      fun e he2 => hInv.pqB e (hpq₂ e he2),
      fun e he2 => hInv.pqN e (hpq₂ e he2), hInv.startZ, hInv.startP⟩
  | none =>
    have he : insertIfAbsent st.dist x 0 = st.dist ++ [(x, 0)] :=
      insertIfAbsent_of_none 0 hl
    rw [he]
    have hxk : x ∉ st.dist.map Prod.fst := by
      intro hm
      obtain ⟨v, hv⟩ := lookup_some_of_mem_keys hm
      rw [hl] at hv
      exact Option.noConfusion hv
    have hKeq : finCount (st.dist ++ [(x, 0)]) = finCount st.dist + 1 :=
      finCount_append_zero _ _
    have hmono : M * (finCount st.dist : Int)
        ≤ M * (finCount (st.dist ++ [(x, 0)]) : Int) := by
      apply mul_le_mul_of_nonneg_left _ hM
      exact_mod_cast Nat.le_of_lt (by omega)
    have hnn : (0 : Int) ≤ M * (finCount (st.dist ++ [(x, 0)]) : Int) :=
      mul_nonneg hM (Int.natCast_nonneg _)
    refine ⟨?_, ?_, ?_, ?_, ?_, ?_, ?_⟩
    · show ((st.dist ++ [(x, 0)]).map Prod.fst).Nodup
      rw [List.map_append]
      exact nodup_append_singleton hInv.keysN hxk
    · intro k hk
      rw [List.map_append] at hk
      rcases List.mem_append.1 hk with h1 | h1
      · exact hInv.keysSub k h1
      · have : k = x := by simpa using h1
        rw [this]; exact hx
    · intro p hp
      rcases List.mem_append.1 hp with h1 | h1
      · rcases hInv.distB p h1 with h2 | h2
        · exact Or.inl h2
        · exact Or.inr ⟨h2.1, le_trans h2.2 hmono⟩
      · have : p = (x, 0) := by simpa using h1
        rw [this]
        exact Or.inr ⟨le_refl 0, hnn⟩
    · intro e he2
      obtain ⟨h1, h2⟩ := hInv.pqB e (hpq₂ e he2)
      exact ⟨h1, le_trans h2 hmono⟩
    · intro e he2
      exact hInv.pqN e (hpq₂ e he2)
    · show List.lookup s (st.dist ++ [(x, 0)]) = some 0
      exact lookup_append_of_some hInv.startZ
    · exact hInv.startP

theorem relaxList_num (g : Graph) (s : String) (M : Int) (hM : 0 ≤ M)
    (hbound : M * (((allNodes g s).length : Int) + 1) < INTMAX)
    (c : Int) (u : String) :
    ∀ adj : List (String × Int),
      (∀ q ∈ adj, (0 ≤ q.2 ∧ q.2 ≤ M) ∧ q.1 ∈ allNodes g s) →
      ∀ st : DState, NumInv g s M st →
        0 ≤ c → c ≤ M * (finCount st.dist : Int) →
        NumInv g s M (relaxList c u adj st) := by
  intro adj
  induction adj with
  | nil => intro _ st hInv _ _; exact hInv
  | cons q rest ih =>
    intro hadj st hInv hc0 hcK
    obtain ⟨v, w⟩ := q
    obtain ⟨⟨hw0, hwM⟩, hvA⟩ := hadj (v, w) (List.mem_cons_self _ _)
    have hrest : ∀ q' ∈ rest, (0 ≤ q'.2 ∧ q'.2 ≤ M) ∧ q'.1 ∈ allNodes g s :=
      fun q' hq' => hadj q' (List.mem_cons_of_mem _ hq')
    have hKN : (finCount st.dist : Int) ≤ ((allNodes g s).length : Int) := by
      exact_mod_cast finCount_le_allNodes hInv.keysN hInv.keysSub
    have hMK : M * (finCount st.dist : Int)
        ≤ M * ((allNodes g s).length : Int) :=
      mul_le_mul_of_nonneg_left hKN hM
    have hMsplit : M * (((allNodes g s).length : Int) + 1)
        = M * ((allNodes g s).length : Int) + M := by ring
    have hIM : INTMAX = 2147483647 := rfl
    have hcw1 : 0 ≤ c + w := by omega
    have hcw3 : c + w < INTMAX := by omega
    have hnd : wrap32 (c + w) = c + w := wrap32_id hcw1 (by omega)
    have hgoal : relaxList c u ((v, w) :: rest) st
        = if wrap32 (c + w) < lookupD st.dist v 0 then
            relaxList c u rest ⟨setk (insertIfAbsent st.dist v 0) v
              (wrap32 (c + w)), setk st.pred v u, (wrap32 (c + w), v) :: st.pq⟩
          else relaxList c u rest ⟨insertIfAbsent st.dist v 0, st.pred, st.pq⟩ :=
      rfl
    rw [hgoal]
    by_cases hlt : wrap32 (c + w) < lookupD st.dist v 0
    · rw [if_pos hlt]
      cases hl : List.lookup v st.dist with
      | none =>
        exfalso
        have h0 : lookupD st.dist v 0 = 0 := by rw [lookupD, hl]; rfl
        rw [h0, hnd] at hlt
        omega
      | some dv =>
        have hdi : insertIfAbsent st.dist v 0 = st.dist :=
          insertIfAbsent_of_some 0 hl
        have hdv0 : lookupD st.dist v 0 = dv := by rw [lookupD, hl]; rfl
        rw [hdi, hnd]
        rw [hnd, hdv0] at hlt
        have hndI : c + w ≠ INTMAX := by omega
        have hKeq : finCount (setk st.dist v (c + w))
            = finCount st.dist + (if dv = INTMAX then 1 else 0) :=
          finCount_setk (c + w) hl hndI
        have hKge : finCount st.dist ≤ finCount (setk st.dist v (c + w)) := by
          rw [hKeq]
          split <;> omega
        have hmono : M * (finCount st.dist : Int)
            ≤ M * (finCount (setk st.dist v (c + w)) : Int) :=
          mul_le_mul_of_nonneg_left (by exact_mod_cast hKge) hM
        have hndB : c + w ≤ M * (finCount (setk st.dist v (c + w)) : Int) := by
          by_cases hdvI : dv = INTMAX
          · have hK1 : (finCount (setk st.dist v (c + w)) : Int)
                = (finCount st.dist : Int) + 1 := by
              rw [hKeq, if_pos hdvI]
              push_cast
              ring
            have hsplit : M * ((finCount st.dist : Int) + 1)
                = M * (finCount st.dist : Int) + M := by ring
            rw [hK1, hsplit]
            omega
          · rcases hInv.distB (v, dv) (lookup_mem hl) with h1 | h1
            · exact absurd h1 hdvI
            · have h2 : dv ≤ M * (finCount st.dist : Int) := h1.2
              omega
        have hvs : v ≠ s := by
          intro he
          rw [he, hInv.startZ] at hl
          injection hl with h4
          omega
        have hkeys : (setk st.dist v (c + w)).map Prod.fst
            = st.dist.map Prod.fst :=
          setk_keys_of_mem _ (mem_keys_of_lookup hl)
        apply ih hrest
        · refine ⟨?_, ?_, ?_, ?_, ?_, ?_, ?_⟩
          · show ((setk st.dist v (c + w)).map Prod.fst).Nodup
            rw [hkeys]; exact hInv.keysN
          · intro k hk
            rw [hkeys] at hk
            exact hInv.keysSub k hk
          · intro p hp
            rcases setk_mem hp with h1 | h1
            · subst h1
              exact Or.inr ⟨hcw1, hndB⟩
            · rcases hInv.distB p h1 with h2 | h2
              · exact Or.inl h2
              · exact Or.inr ⟨h2.1, le_trans h2.2 hmono⟩
          · intro e he
            rcases List.mem_cons.1 he with h1 | h1
            · subst h1
              exact ⟨hcw1, hndB⟩
            · obtain ⟨h2, h3⟩ := hInv.pqB e h1
              exact ⟨h2, le_trans h3 hmono⟩
          · intro e he
            rcases List.mem_cons.1 he with h1 | h1
            · subst h1; exact hvA
            · exact hInv.pqN e h1
          · show List.lookup s (setk st.dist v (c + w)) = some 0
            rw [setk_lookup_ne st.dist v s (c + w) (Ne.symm hvs)]
            exact hInv.startZ
          · show List.lookup s (setk st.pred v u) = none
            rw [setk_lookup_ne st.pred v s u (Ne.symm hvs)]
            exact hInv.startP
        · exact hc0
        · exact le_trans hcK hmono
    · rw [if_neg hlt]
      apply ih hrest _
        (numInv_insert g s M hM st hInv v hvA st.pq (fun e he => he)) hc0
      exact le_trans hcK (mul_le_mul_of_nonneg_left
        (by exact_mod_cast finCount_insertIfAbsent_ge st.dist v) hM)

theorem allNodes_of_outer {g : Graph} {s k : String}
    (h : k ∈ g.map Prod.fst) : k ∈ allNodes g s := by
  obtain ⟨p, hp, hp1⟩ := List.mem_map.1 h
  exact List.mem_cons_of_mem _ (hp1 ▸ nodesAux_outer hp)

theorem dstep_num (g : Graph) (s : String) (M : Int) (hM : 0 ≤ M)
    (hw : WeightBound g M)
    (hbound : M * (((allNodes g s).length : Int) + 1) < INTMAX)
    {st st' : DState} (hInv : NumInv g s M st) (h : dstep g st = some st') :
    NumInv g s M st' := by
  cases hpop : popMin st.pq with
  | none =>
    rw [dstep, hpop] at h
    exact Option.noConfusion h
  | some pr =>
    obtain ⟨⟨c, u⟩, pq'⟩ := pr
    have h2 : (if lookupD st.dist u 0 < c then
          some (⟨insertIfAbsent st.dist u 0, st.pred, pq'⟩ : DState)
        else
          match List.lookup u g with
          | none => some (⟨insertIfAbsent st.dist u 0, st.pred, pq'⟩ : DState)
          | some adj =>
            some (relaxList c u adj ⟨insertIfAbsent st.dist u 0, st.pred, pq'⟩))
        = some st' := by
      rw [dstep, hpop] at h
      exact h
    clear h
    have hcu : (c, u) ∈ st.pq := popMin_mem hpop
    obtain ⟨hc0, hcK⟩ := hInv.pqB (c, u) hcu
    have huA : u ∈ allNodes g s := hInv.pqN (c, u) hcu
    have hsub : ∀ e ∈ pq', e ∈ st.pq := popMin_rest_sub hpop
    have hmid : NumInv g s M ⟨insertIfAbsent st.dist u 0, st.pred, pq'⟩ :=
      numInv_insert g s M hM st hInv u huA pq' hsub
    have hcK2 : c ≤ M * (finCount (insertIfAbsent st.dist u 0) : Int) :=
      le_trans hcK (mul_le_mul_of_nonneg_left
        (by exact_mod_cast finCount_insertIfAbsent_ge st.dist u) hM)
    by_cases hst : lookupD st.dist u 0 < c
    · rw [if_pos hst] at h2
      injection h2 with h3
      rw [← h3]
      exact hmid
    · rw [if_neg hst] at h2
      cases hlk : List.lookup u g with
      | none =>
        rw [hlk] at h2
        injection h2 with h3
        rw [← h3]
        exact hmid
      | some adj =>
        rw [hlk] at h2
        injection h2 with h3
        rw [← h3]
        have hmem : (u, adj) ∈ g := lookup_mem hlk
        have hadj : ∀ q ∈ adj, (0 ≤ q.2 ∧ q.2 ≤ M) ∧ q.1 ∈ allNodes g s :=
          fun q hq => ⟨hw (u, adj) hmem q hq,
            List.mem_cons_of_mem _ (nodesAux_inner hmem hq)⟩
        exact relaxList_num g s M hM hbound c u adj hadj _ hmid hc0 hcK2

theorem drun_num (g : Graph) (s : String) (M : Int) (hM : 0 ≤ M)
    (hw : WeightBound g M)
    (hbound : M * (((allNodes g s).length : Int) + 1) < INTMAX) :
    ∀ (fuel : Nat) (st : DState), NumInv g s M st →
      NumInv g s M (drun g fuel st) := by
  intro fuel
  induction fuel with
  | zero => intro st h; exact h
  | succ f ih =>
    intro st h
    rw [drun]
    cases hd : dstep g st with
    | none => exact h
    | some st' => exact ih st' (dstep_num g s M hM hw hbound h hd)

theorem init_num (g : Graph) (s : String) (M : Int) (hM : 0 ≤ M)
    (hkeys : (g.map Prod.fst).Nodup) :
    NumInv g s M ⟨initDistances g s, [], [(0, s)]⟩ := by
  have hnn : ∀ m : Distances, (0 : Int) ≤ M * (finCount m : Int) :=
    fun m => mul_nonneg hM (Int.natCast_nonneg _)
  have hbk : (List.map (fun p => (p.1, INTMAX)) g).map Prod.fst
      = g.map Prod.fst := by
    rw [List.map_map]
    rfl
  have hbase : ∀ p ∈ List.map (fun p => (p.1, INTMAX)) g, p.2 = INTMAX := by
    intro p hp
    obtain ⟨q, _, hq1⟩ := List.mem_map.1 hp
    rw [← hq1]
  have hsetm : ∀ p ∈ initDistances g s,
      p = (s, 0) ∨ p ∈ List.map (fun p => (p.1, INTMAX)) g :=
    fun p hp => setk_mem hp
  refine ⟨?_, ?_, ?_, ?_, ?_, ?_, ?_⟩
  · show ((initDistances g s).map Prod.fst).Nodup
    rw [initDistances]
    by_cases hmem : s ∈ (List.map (fun p => (p.1, INTMAX)) g).map Prod.fst
    · rw [setk_keys_of_mem _ hmem, hbk]
      exact hkeys
    · have hln : List.lookup s (List.map (fun p => (p.1, INTMAX)) g) = none :=
        lookup_eq_none_of_not_mem_keys hmem
      rw [setk_of_lookup_none _ hln, List.map_append, hbk]
      exact nodup_append_singleton hkeys (hbk ▸ hmem)
  · intro k hk
    rw [initDistances] at hk
    by_cases hmem : s ∈ (List.map (fun p => (p.1, INTMAX)) g).map Prod.fst
    · rw [setk_keys_of_mem _ hmem, hbk] at hk
      exact allNodes_of_outer hk
    · have hln : List.lookup s (List.map (fun p => (p.1, INTMAX)) g) = none :=
        lookup_eq_none_of_not_mem_keys hmem
      rw [setk_of_lookup_none _ hln, List.map_append, hbk] at hk
      rcases List.mem_append.1 hk with h1 | h1
      · exact allNodes_of_outer h1
      · have : k = s := by simpa using h1
        rw [this]
        exact List.mem_cons_self _ _
  · intro p hp
    rcases hsetm p hp with h1 | h1
    · subst h1
      exact Or.inr ⟨le_refl 0, hnn _⟩
    · exact Or.inl (hbase p h1)
  · intro e he
    rcases List.mem_cons.1 he with h1 | h1
    · subst h1
      exact ⟨le_refl 0, hnn _⟩
    · cases h1
  · intro e he
    rcases List.mem_cons.1 he with h1 | h1
    · subst h1
      exact List.mem_cons_self _ _
    · cases h1
  · exact setk_lookup_self _ _ _
  · rfl

/-- C2 (amended): for every graph whose edge weights lie in `[0, M]` with
`M * (|allNodes| + 1) < INT_MAX` (so no relaxation sum can reach the
sentinel or overflow) and whose outer keys are distinct, the distance map
returned by `dijkstra_shortest_path` maps the start node to 0 — whether or
not the start node is a key of the graph.  Without the weight bound the
claim fails: see `c2_overflow_start_distance_corrupted`. -/
theorem c2_amended_start_distance_zero (g : Graph) (s : String) (M : Int)
    (hM : 0 ≤ M) (hw : WeightBound g M) (hkeys : (g.map Prod.fst).Nodup)
    (hbound : M * (((allNodes g s).length : Int) + 1) < INTMAX) :
    List.lookup s (dijkstra_shortest_path g s).1 = some 0 := by
  have h := drun_num g s M hM hw hbound (fuelBound g) _
    (init_num g s M hM hkeys)
  rw [dijkstra_shortest_path]
  exact h.startZ

/-- Witness for the amended C2: the sample graph with `M = 15`. -/
theorem c2_amended_witness :
    List.lookup "A" (dijkstra_shortest_path sample_graph "A").1 = some 0 :=
  c2_amended_start_distance_zero sample_graph "A" 15 (by decide)
    (by unfold WeightBound; decide) (by decide) (by decide)

/-- C7 (amended): under the same no-overflow weight bound, the predecessor
map returned by `dijkstra_shortest_path` has no entry for the start node.
Without the bound the claim fails: see
`c7_overflow_start_gets_predecessor`. -/
theorem c7_amended_start_no_predecessor (g : Graph) (s : String) (M : Int)
    (hM : 0 ≤ M) (hw : WeightBound g M) (hkeys : (g.map Prod.fst).Nodup)
    (hbound : M * (((allNodes g s).length : Int) + 1) < INTMAX) :
    List.lookup s (dijkstra_shortest_path g s).2 = none := by
  have h := drun_num g s M hM hw hbound (fuelBound g) _
    (init_num g s M hM hkeys)
  rw [dijkstra_shortest_path]
  exact h.startP

/-- Witness for the amended C7: the sample graph with `M = 15`. -/
theorem c7_amended_witness :
    List.lookup "A" (dijkstra_shortest_path sample_graph "A").2 = none :=
  c7_amended_start_no_predecessor sample_graph "A" 15 (by decide)
    (by unfold WeightBound; decide) (by decide) (by decide)
